import Mathlib

/-!
Verification model of the sealed-bid auction engine.

The engine lives in the database layer of the repository:
* `check_auction_status` (migration `20250225124845_broad_lagoon.sql`, lines 135-148):
  an AFTER INSERT OR UPDATE trigger on `auctions` that recomputes `status`
  from the wall clock (`ended` when `now() >= end_time`, else `active` when
  `now() >= start_time`, else unchanged).
* `determine_auction_winner` (migration fragment `unnamed/part_000`, lines 50-93):
  an AFTER UPDATE trigger that, when a row update has `OLD.status = 'active'`
  and `NEW.status = 'ended'`, selects a bid by `ORDER BY amount DESC LIMIT 1`,
  writes `winner_id`/`winning_bid_id`, and inserts two notification rows.
* the `bids` INSERT row-level-security policy ("Users can create bids",
  same migration, lines 121-132): a bid row is admitted only when the caller
  is the bidder and the target auction is `active` with `end_time > now()`.
* the client-side gate `handleBidSubmit` / `fetchAuctionDetails`
  (`src/pages/AuctionDetail.tsx`) and the realtime plumbing
  (`src/lib/websocket.ts`).

Amounts and timestamps are modelled as rationals (`decimal` / `timestamptz`),
ids as naturals.  The database state for a single auction is a `DB` record;
one SQL statement together with its trigger cascade is one step function.
Postgres evaluates `now()` once per transaction, so a single step sees a
single time value `now`.  The trigger cascade is applied to its fixpoint:
`check_auction_status`'s status recomputation is idempotent for a fixed
`now`, and `determine_auction_winner` is a no-op when `OLD.status` equals
`NEW.status`, so one application of each stage in firing order suffices.
-/

inductive Status where
  | draft
  | active
  | ended
  | cancelled
deriving DecidableEq, Repr

structure Bid where
  id : Nat
  bidderId : Nat
  amount : ℚ
  createdAt : ℚ
deriving DecidableEq, Repr

structure Auction where
  startPrice : ℚ
  startTime : ℚ
  endTime : ℚ
  productTitle : String
  sellerId : Nat
  status : Status
  winnerId : Option Nat
  winningBidId : Option Nat
deriving DecidableEq, Repr

structure Notice where
  userId : Nat
  title : String
  message : String
deriving DecidableEq, Repr

structure DB where
  auction : Auction
  bids : List Bid
  notices : List Notice
  time : ℚ
deriving DecidableEq, Repr

/-- The `CASE` expression of the `check_auction_status` trigger
(`broad_lagoon.sql` lines 138-144): status is recomputed purely from the
clock, ignoring the current status unless neither deadline has been
reached. -/
def check_auction_status (now : ℚ) (a : Auction) : Status :=
  if a.endTime ≤ now then .ended
  else if a.startTime ≤ now then .active
  else a.status

/-- A selection function modelling the SQL
`SELECT * FROM bids WHERE auction_id = .. ORDER BY amount DESC LIMIT 1`:
with no secondary sort key, any row of maximal `amount` may be returned,
and no row is returned exactly when the auction has no bids. -/
def ValidPick (pick : List Bid → Option Bid) : Prop :=
  (∀ bids, pick bids = none ↔ bids = []) ∧
  (∀ bids b, pick bids = some b → b ∈ bids ∧ ∀ c ∈ bids, c.amount ≤ b.amount)

/-- One resolution of the `ORDER BY amount DESC LIMIT 1` query: the first
listed bid of maximal amount. -/
def pickFirstMax (bids : List Bid) : Option Bid :=
  match bids with
  | [] => none
  | b :: bs => some (bs.foldl (fun acc c => if acc.amount < c.amount then c else acc) b)

/-- Another resolution of the same query: the last listed bid of maximal
amount.  Both resolutions return a row of maximal `amount`, which is all the
SQL guarantees. -/
def pickLastMax (bids : List Bid) : Option Bid :=
  match bids with
  | [] => none
  | b :: bs => some (bs.foldl (fun acc c => if acc.amount ≤ c.amount then c else acc) b)

/-- Body of the `determine_auction_winner` trigger (`unnamed/part_000`
lines 56-89) run against an update `old → a` of the auction row: only when
the new status is `ended` and the old one was `active` does it look up a
highest bid; if one exists it writes the winner fields and inserts the two
notification rows (winner congratulation, seller summary). -/
def determine_auction_winner (pick : List Bid → Option Bid) (oldStatus : Status)
    (a : Auction) (bids : List Bid) : Auction × List Notice :=
  if a.status = .ended ∧ oldStatus = .active then
    match pick bids with
    | some wb =>
        ({ a with winnerId := some wb.bidderId, winningBidId := some wb.id },
         [⟨wb.bidderId, "Auction Won!",
            "Congratulations! You won the auction for item: " ++ a.productTitle⟩,
          ⟨a.sellerId, "Auction Ended",
            "Your auction has ended with a winning bid of $" ++ toString wb.amount⟩])
    | none => (a, [])
  else (a, [])

/-- One `UPDATE` statement on the auction row (field change `f`) together
with its trigger cascade, applied to the cascade's fixpoint:
`determine_winner_trigger` fires on the user's update, then
`update_auction_status` recomputes the status from the clock with its nested
update, on which `determine_winner_trigger` fires again.  Further firings
change nothing (the recomputation is idempotent for a fixed `now`, and the
winner-field update leaves the status unchanged). -/
def stepUpdate (pick : List Bid → Option Bid) (now : ℚ) (db : DB)
    (f : Auction → Auction) : DB :=
  let old := db.auction
  let a1 := f old
  let s1 := determine_auction_winner pick old.status a1 db.bids
  let a2 := s1.1
  let a3 := { a2 with status := check_auction_status now a2 }
  let s2 := determine_auction_winner pick a2.status a3 db.bids
  { auction := s2.1
    bids := db.bids
    notices := db.notices ++ s1.2 ++ s2.2
    time := now }

/-- The auction row inserted by `CreateAuction.tsx` (lines 85-92): the form
inserts `status: 'active'` and never sets the winner fields. -/
def mkAuction (startPrice startTime endTime : ℚ) (title : String)
    (seller : Nat) : Auction :=
  { startPrice := startPrice
    startTime := startTime
    endTime := endTime
    productTitle := title
    sellerId := seller
    status := .active
    winnerId := none
    winningBidId := none }

/-- The `INSERT` of a fresh auction together with its trigger cascade
(`update_auction_status` also fires on INSERT; its nested update fires
`determine_winner_trigger`, vacuous here since no bids exist yet). -/
def insertAuction (pick : List Bid → Option Bid) (now : ℚ) (a : Auction) : DB :=
  let a1 := { a with status := check_auction_status now a }
  let s := determine_auction_winner pick a.status a1 []
  { auction := s.1, bids := [], notices := s.2, time := now }

/-- The `bids` INSERT row-level-security policy "Users can create bids"
(`broad_lagoon.sql` lines 121-132): the target auction must be `active` and
its `end_time` strictly in the future. (The policy's `auth.uid() = bidder_id`
clause holds by construction here: the client inserts `bidder_id: user.id`.) -/
def bidPolicy (now : ℚ) (a : Auction) : Prop :=
  a.status = .active ∧ now < a.endTime

instance (now : ℚ) (a : Auction) : Decidable (bidPolicy now a) := by
  unfold bidPolicy; infer_instance

/-- One attempted `INSERT` into `bids` (id `i`, bidder `u`, amount `amt`);
`created_at` defaults to `now()`, the same transaction time the policy is
evaluated against.  A rejected insert leaves the database unchanged. -/
def stepBid (now : ℚ) (db : DB) (i u : Nat) (amt : ℚ) : DB :=
  if bidPolicy now db.auction then
    { db with bids := db.bids ++ [⟨i, u, amt, now⟩], time := now }
  else db

/-- Modelled from the spec: `CancelAuction` (spec §6, §4.1) is absent from
the repository's source; per the spec it moves a non-terminal auction to
`cancelled` and is a no-op on terminal states.  The resulting row update
still runs through the trigger cascade like every write. -/
def cancelOp (a : Auction) : Auction :=
  if a.status = .draft ∨ a.status = .active then { a with status := .cancelled }
  else a

/-- The write operations the system performs on one auction: a bare row
touch (any update, e.g. a scheduler sweep), the spec-modelled cancel, and a
bid submission. -/
inductive Step (pick : List Bid → Option Bid) : ℚ → DB → DB → Prop
  | touch (now : ℚ) (db : DB) : Step pick now db (stepUpdate pick now db (fun a => a))
  | cancel (now : ℚ) (db : DB) : Step pick now db (stepUpdate pick now db cancelOp)
  | bid (now : ℚ) (db : DB) (i u : Nat) (amt : ℚ) :
      Step pick now db (stepBid now db i u amt)

/-- Database states reachable from an auction creation under monotone wall
clock time. -/
inductive Reachable (pick : List Bid → Option Bid) : DB → Prop
  | init (now startPrice startTime endTime : ℚ) (title : String) (seller : Nat) :
      Reachable pick (insertAuction pick now (mkAuction startPrice startTime endTime title seller))
  | step (db : DB) (now : ℚ) (db' : DB) (h : Reachable pick db)
      (ht : db.time ≤ now) (hs : Step pick now db db') : Reachable pick db'

/-- Largest bid amount of a nonempty list (the amount of the row returned by
`ORDER BY amount DESC LIMIT 1`, which is determined even though the row
itself is not). -/
def amountMax (b : Bid) (bs : List Bid) : ℚ :=
  bs.foldl (fun m c => max m c.amount) b.amount

/-- `fetchAuctionDetails` (`AuctionDetail.tsx` lines 104-117): the page reads
the top bid by amount and falls back to the start price when no bid exists. -/
def fetchHighestBid (startPrice : ℚ) (bids : List Bid) : ℚ :=
  match bids with
  | [] => startPrice
  | b :: bs => amountMax b bs

/-- JavaScript `x || y` on numbers: `0` is falsy. -/
def jsOr (x y : ℚ) : ℚ := if x = 0 then y else x

/-- The client-side admission gate of `handleBidSubmit`
(`AuctionDetail.tsx` line 135): the bid is rejected unless it strictly
exceeds `auction.highest_bid || auction.start_price`. -/
def handleBidSubmitCheck (highest startPrice amt : ℚ) : Bool :=
  decide (jsOr highest startPrice < amt)

/-- The full client submission path: gate against the freshly fetched
highest bid, then insert through the row-level-security policy.  No check
relates the bidder to the item's seller. -/
def handleBidSubmit (now : ℚ) (db : DB) (u i : Nat) (amt : ℚ) : DB :=
  if handleBidSubmitCheck (fetchHighestBid db.auction.startPrice db.bids)
      db.auction.startPrice amt then
    stepBid now db i u amt
  else db

/-- Two clients racing on one auction, both fetching the highest bid before
either inserts: each checks against the shared stale snapshot, and each
passing insert is unconditional (the policy never inspects the amount). -/
def twoPhaseSchedule (now : ℚ) (db : DB) (u1 i1 : Nat) (amt1 : ℚ)
    (u2 i2 : Nat) (amt2 : ℚ) : DB :=
  let h := fetchHighestBid db.auction.startPrice db.bids
  let db1 := if handleBidSubmitCheck h db.auction.startPrice amt1 then
      stepBid now db i1 u1 amt1 else db
  if handleBidSubmitCheck h db.auction.startPrice amt2 then
    stepBid now db1 i2 u2 amt2 else db1

/-- The spec's tie-break order (§4.3): higher amount first, then earlier
creation timestamp, then smaller bid id.  (Stated from the spec's words, to
be compared with the source's `ORDER BY amount DESC LIMIT 1`.) -/
def specBetter (b c : Bid) : Prop :=
  c.amount < b.amount ∨
    (b.amount = c.amount ∧
      (b.createdAt < c.createdAt ∨ (b.createdAt = c.createdAt ∧ b.id < c.id)))

instance (b c : Bid) : Decidable (specBetter b c) := by
  unfold specBetter; infer_instance

/-- The winner the spec's algorithm (§4.3) would select: maximal bid in the
`specBetter` order. -/
def specTieBreakWinner (bids : List Bid) : Option Bid :=
  match bids with
  | [] => none
  | b :: bs => some (bs.foldl (fun acc c => if specBetter c acc then c else acc) b)

/-- A Supabase `postgres_changes` payload for the `bids` table, as delivered
to `subscribeToAuction` subscribers (`websocket.ts` lines 7-19): the payload
carries the whole changed row. -/
structure BidsPayload where
  eventType : String
  newRow : Bid
deriving DecidableEq, Repr

/-- The realtime event emitted for an admitted bid: an INSERT change whose
`new` record is the full bid row, bidder id included. -/
def bidInsertPayload (b : Bid) : BidsPayload :=
  { eventType := "INSERT", newRow := b }

/-- The `AuctionDetail.tsx` subscription callback (lines 39-47): on an
INSERT event the page state keeps `max(payload.new.amount, prev.highest_bid || 0)`. -/
def onBidEvent (prevHighest : Option ℚ) (p : BidsPayload) : Option ℚ :=
  if p.eventType = "INSERT" then some (max p.newRow.amount (prevHighest.getD 0))
  else prevHighest

/-- The mutable state of `WebSocketService` (`websocket.ts`): the `channels`
map (association list with JavaScript `Map.set` semantics), a counter
allocating fresh realtime channels, and the list of channels on which
`.unsubscribe()` has been called. -/
structure WSState where
  channels : List (String × Nat)
  nextId : Nat
  closed : List Nat
deriving DecidableEq, Repr

def mapSet (m : List (String × Nat)) (k : String) (v : Nat) : List (String × Nat) :=
  match m with
  | [] => [(k, v)]
  | (k', v') :: rest => if k' = k then (k, v) :: rest else (k', v') :: mapSet rest k v

def mapGet (m : List (String × Nat)) (k : String) : Option Nat :=
  match m with
  | [] => none
  | (k', v') :: rest => if k' = k then some v' else mapGet rest k

def mapDelete (m : List (String × Nat)) (k : String) : List (String × Nat) :=
  match m with
  | [] => []
  | (k', v') :: rest => if k' = k then rest else (k', v') :: mapDelete rest k

/-- `WebSocketService.subscribeToAuction` (`websocket.ts` lines 7-19): a new
channel is created and stored under the key `auctionId`; the returned
unsubscribe closure captures `auctionId` (modelled by returning it). -/
def subscribeToAuction (s : WSState) (auctionId : String) : WSState × String :=
  ({ channels := mapSet s.channels auctionId s.nextId
     nextId := s.nextId + 1
     closed := s.closed }, auctionId)

/-- `WebSocketService.unsubscribeFromChannel` (lines 40-46): closes and
removes the channel stored under `channelKey`, if any. -/
def unsubscribeFromChannel (s : WSState) (channelKey : String) : WSState :=
  match mapGet s.channels channelKey with
  | some ch => { channels := mapDelete s.channels channelKey
                 nextId := s.nextId
                 closed := s.closed ++ [ch] }
  | none => s

/-- `WebSocketService.unsubscribeFromAuction` (lines 36-38): looks the
channel up under the key `"auction:" ++ auctionId` — not the key
`subscribeToAuction` stored it under. -/
def unsubscribeFromAuction (s : WSState) (auctionId : String) : WSState :=
  unsubscribeFromChannel s ("auction:" ++ auctionId)

/-- Two bids of equal maximal amount, the first one earlier. -/
def exBidEarly : Bid := ⟨1, 3, 100, 1⟩

def exBidLate : Bid := ⟨2, 4, 100, 2⟩

/-- Claim C1 as stated: every bid the settlement query may return (any
resolution of `ORDER BY amount DESC LIMIT 1`) is the spec's tie-break winner
(maximum amount, then earliest timestamp, then smallest id). -/
def claimC1 : Prop :=
  ∀ (pick : List Bid → Option Bid) (bids : List Bid) (b : Bid),
    ValidPick pick → pick bids = some b → specTieBreakWinner bids = some b

/-- A concrete settled database: the auction ended at time 10 with one bid
and its winner fields recorded. -/
def dbSettled : DB :=
  { auction := { startPrice := 100, startTime := 0, endTime := 10,
                 productTitle := "item", sellerId := 7, status := .ended,
                 winnerId := some 3, winningBidId := some 1 }
    bids := [⟨1, 3, 150, 1⟩]
    notices := []
    time := 11 }

/-- The settlement-field invariant that actually holds of the code: the two
winner fields are set together, any set winner points to an admitted bid of
an `ended` auction whose deadline already passed, and `ended` is only
reached at or after the deadline. -/
def SettlementInv (db : DB) : Prop :=
  (db.auction.winnerId = none ↔ db.auction.winningBidId = none) ∧
  (∀ w, db.auction.winnerId = some w →
    db.auction.status = .ended ∧
    ∃ b ∈ db.bids, db.auction.winningBidId = some b.id ∧ w = b.bidderId) ∧
  (db.auction.status = .ended → db.auction.endTime ≤ db.time)

/-- Claim C3 as stated: in every reachable database state the winner fields
are set exactly when the auction is `ended` with at least one bid. -/
def claimC3 : Prop :=
  ∀ (pick : List Bid → Option Bid) (db : DB), ValidPick pick → Reachable pick db →
    ((db.auction.winnerId ≠ none ∧ db.auction.winningBidId ≠ none) ↔
      (db.auction.status = .ended ∧ db.bids ≠ []))

/-- Claim C4 as stated: terminal statuses never change again, and a cancel
of an active auction with bids leaves it `cancelled`. -/
def claimC4 : Prop :=
  (∀ (pick : List Bid → Option Bid) (now : ℚ) (db db' : DB),
     Reachable pick db →
     (db.auction.status = .ended ∨ db.auction.status = .cancelled) →
     db.time ≤ now → Step pick now db db' →
     db'.auction.status = db.auction.status) ∧
  (∀ (pick : List Bid → Option Bid) (now : ℚ) (db : DB),
     Reachable pick db → db.auction.status = .active → db.bids ≠ [] →
     db.time ≤ now →
     (stepUpdate pick now db cancelOp).auction.status = .cancelled)

/-- Claim C6 as stated: with prior bids the submission must strictly exceed
the current highest amount, and with no prior bid an amount equal to the
starting price is admissible. -/
def claimC6 : Prop :=
  ∀ (startPrice amt : ℚ) (bids : List Bid),
    0 < startPrice → (∀ b ∈ bids, 0 < b.amount) →
    (handleBidSubmitCheck (fetchHighestBid startPrice bids) startPrice amt = true ↔
      match bids with
      | [] => startPrice ≤ amt
      | b :: bs => amountMax b bs < amt)

/-- A concrete freshly created active auction (seller 7, start price 100,
window from 0 to 10, no bids yet). -/
def dbActive : DB := insertAuction pickFirstMax 0 (mkAuction 100 0 10 "item" 7)

/-- Claim C7 as stated: a submission whose bidder is the item's seller is
never persisted (it fails with a self-bid error). -/
def claimC7 : Prop :=
  ∀ (now : ℚ) (db : DB) (i : Nat) (amt : ℚ),
    handleBidSubmit now db db.auction.sellerId i amt = db

/-- Claim C8 as stated: the realtime event emitted for an admitted bid does
not reveal the bidder: two bids differing only in bidder identity produce
identical events. -/
def claimC8 : Prop :=
  ∀ (b1 b2 : Bid), b1.id = b2.id → b1.amount = b2.amount →
    b1.createdAt = b2.createdAt → bidInsertPayload b1 = bidInsertPayload b2

/-- Claim C9 as stated: even for two submissions racing on one auction
(both reading the highest bid before either writes), the accepted bids
remain strictly increasing in amount. -/
def claimC9 : Prop :=
  ∀ (now : ℚ) (db : DB) (u1 i1 : Nat) (amt1 : ℚ) (u2 i2 : Nat) (amt2 : ℚ),
    List.Pairwise (· < ·) (db.bids.map (fun b => b.amount)) →
    List.Pairwise (· < ·)
      ((twoPhaseSchedule now db u1 i1 amt1 u2 i2 amt2).bids.map (fun b => b.amount))

theorem foldl_choice_mem (f : Bid → Bid → Bid)
    (hf : ∀ a c, f a c = a ∨ f a c = c) :
    ∀ (bs : List Bid) (b : Bid), bs.foldl f b ∈ b :: bs := by
  intro bs
  induction bs with
  | nil => intro b; simp
  | cons c cs ih =>
    intro b
    rw [List.foldl_cons]
    rcases List.mem_cons.mp (ih (f b c)) with h | h
    · rcases hf b c with h2 | h2
      · rw [h, h2]; exact List.mem_cons_self _ _
      · rw [h, h2]; exact List.mem_cons_of_mem _ (List.mem_cons_self _ _)
    · exact List.mem_cons_of_mem _ (List.mem_cons_of_mem _ h)

theorem foldl_choice_le (f : Bid → Bid → Bid)
    (hf : ∀ a c, a.amount ≤ (f a c).amount ∧ c.amount ≤ (f a c).amount) :
    ∀ (bs : List Bid) (b : Bid), ∀ x ∈ b :: bs, x.amount ≤ (bs.foldl f b).amount := by
  intro bs
  induction bs with
  | nil =>
    intro b x hx
    rcases List.mem_cons.mp hx with h | h
    · subst h; simp
    · cases h
  | cons c cs ih =>
    intro b x hx
    rw [List.foldl_cons]
    have hhead : (f b c).amount ≤ (cs.foldl f (f b c)).amount :=
      ih (f b c) _ (List.mem_cons_self _ _)
    rcases List.mem_cons.mp hx with h | h
    · subst h; exact le_trans (hf x c).1 hhead
    · rcases List.mem_cons.mp h with h2 | h2
      · subst h2; exact le_trans (hf b x).2 hhead
      · exact ih (f b c) x (List.mem_cons_of_mem _ h2)

theorem validPick_pickFirstMax : ValidPick pickFirstMax := by
  constructor
  · intro bids; cases bids <;> simp [pickFirstMax]
  · intro bids b hb
    cases bids with
    | nil => simp [pickFirstMax] at hb
    | cons c cs =>
      simp only [pickFirstMax, Option.some.injEq] at hb
      subst hb
      refine ⟨foldl_choice_mem _ ?_ cs c, foldl_choice_le _ ?_ cs c⟩
      · intro a d
        by_cases h : a.amount < d.amount
        · simp [h]
        · simp [h]
      · intro a d
        by_cases h : a.amount < d.amount
        · simp only [if_pos h]; exact ⟨le_of_lt h, le_refl _⟩
        · simp only [if_neg h]; exact ⟨le_refl _, le_of_not_lt h⟩

theorem validPick_pickLastMax : ValidPick pickLastMax := by
  constructor
  · intro bids; cases bids <;> simp [pickLastMax]
  · intro bids b hb
    cases bids with
    | nil => simp [pickLastMax] at hb
    | cons c cs =>
      simp only [pickLastMax, Option.some.injEq] at hb
      subst hb
      refine ⟨foldl_choice_mem _ ?_ cs c, foldl_choice_le _ ?_ cs c⟩
      · intro a d
        by_cases h : a.amount ≤ d.amount
        · simp [h]
        · simp [h]
      · intro a d
        by_cases h : a.amount ≤ d.amount
        · simp only [if_pos h]; exact ⟨h, le_refl _⟩
        · simp only [if_neg h]; exact ⟨le_refl _, le_of_not_le h⟩

theorem specTieBreakWinner_mem {bids : List Bid} {w : Bid}
    (h : specTieBreakWinner bids = some w) : w ∈ bids := by
  cases bids with
  | nil => simp [specTieBreakWinner] at h
  | cons c cs =>
    simp only [specTieBreakWinner, Option.some.injEq] at h
    subst h
    exact foldl_choice_mem _ (fun a d => by
      by_cases hd : specBetter d a
      · simp [hd]
      · simp [hd]) cs c

theorem specTieBreakWinner_amount_max {bids : List Bid} {w : Bid}
    (h : specTieBreakWinner bids = some w) : ∀ c ∈ bids, c.amount ≤ w.amount := by
  cases bids with
  | nil => simp [specTieBreakWinner] at h
  | cons c cs =>
    simp only [specTieBreakWinner, Option.some.injEq] at h
    subst h
    exact foldl_choice_le _ (fun a d => by
      by_cases hd : specBetter d a
      · simp only [if_pos hd]
        rcases hd with h1 | ⟨h1, _⟩
        · exact ⟨le_of_lt h1, le_refl _⟩
        · exact ⟨le_of_eq h1.symm, le_refl _⟩
      · simp only [if_neg hd]
        refine ⟨le_refl _, ?_⟩
        by_contra hlt
        exact hd (Or.inl (lt_of_not_le hlt))) cs c

theorem foldl_max_init_le : ∀ (bs : List Bid) (m : ℚ),
    m ≤ bs.foldl (fun m c => max m c.amount) m := by
  intro bs
  induction bs with
  | nil => intro m; simp
  | cons c cs ih =>
    intro m
    rw [List.foldl_cons]
    exact le_trans (le_max_left _ _) (ih (max m c.amount))

theorem foldl_max_mem_le : ∀ (bs : List Bid) (m : ℚ),
    ∀ c ∈ bs, c.amount ≤ bs.foldl (fun m c => max m c.amount) m := by
  intro bs
  induction bs with
  | nil => intro m c hc; cases hc
  | cons d ds ih =>
    intro m c hc
    rw [List.foldl_cons]
    rcases List.mem_cons.mp hc with h | h
    · subst h
      exact le_trans (le_max_right _ _) (foldl_max_init_le ds (max m c.amount))
    · exact ih (max m d.amount) c h

theorem amountMax_head_le (b : Bid) (bs : List Bid) : b.amount ≤ amountMax b bs :=
  foldl_max_init_le bs b.amount

theorem amountMax_mem_le (b : Bid) (bs : List Bid) :
    ∀ c ∈ b :: bs, c.amount ≤ amountMax b bs := by
  intro c hc
  rcases List.mem_cons.mp hc with h | h
  · subst h; exact amountMax_head_le c bs
  · exact foldl_max_mem_le bs b.amount c h

/-- C1 (counterexample): with two bids of equal maximal amount the SQL has no
secondary sort key, so a resolution returning the later-timestamped bid is
valid; the spec's tie-break picks the earlier one, refuting the claim. -/
theorem settlement_tiebreak_counterexample : ¬ claimC1 := by
  intro h
  have := h pickLastMax [exBidEarly, exBidLate] exBidLate validPick_pickLastMax (by decide)
  exact absurd this (by decide)

/-- C1 (amended): the settlement trigger selects some bid of maximal amount,
so it agrees with the spec's tie-break winner on the winning amount, and when
the maximal amount is attained by a unique bid it selects exactly the spec's
winner; equal-amount ties are not deterministically broken. -/
theorem settlement_winner_amended :
    ∀ (pick : List Bid → Option Bid) (bids : List Bid) (b w : Bid),
      ValidPick pick → pick bids = some b → specTieBreakWinner bids = some w →
      b.amount = w.amount ∧ ((∀ c ∈ bids, c.amount = b.amount → c = b) → b = w) := by
  intro pick bids b w hv hp hs
  obtain ⟨hmem, hmax⟩ := hv.2 bids b hp
  have hwmem := specTieBreakWinner_mem hs
  have hwmax := specTieBreakWinner_amount_max hs
  have heq : b.amount = w.amount := le_antisymm (hwmax b hmem) (hmax w hwmem)
  exact ⟨heq, fun huniq => (huniq w hwmem heq.symm).symm⟩

/-- C1 (witness): the amended theorem applied to a single-bid auction. -/
theorem settlement_winner_amended_witness :
    exBidEarly.amount = exBidEarly.amount ∧
      ((∀ c ∈ [exBidEarly], c.amount = exBidEarly.amount → c = exBidEarly) →
        exBidEarly = exBidEarly) :=
  settlement_winner_amended pickFirstMax [exBidEarly] exBidEarly exBidEarly
    validPick_pickFirstMax (by decide) (by decide)

/-- C2: a second invocation of the settlement path on an already-settled
auction (`status = 'ended'`, its deadline passed) — a duplicate close
transition or scheduler tick — leaves the auction row, the notification
table and the bids untouched: the trigger's `OLD.status = 'active'` guard
fails. -/
theorem settlement_idempotent (pick : List Bid → Option Bid) (now : ℚ) (db : DB)
    (hs : db.auction.status = .ended) (ht : db.auction.endTime ≤ now) :
    (stepUpdate pick now db (fun a => a)).auction = db.auction ∧
    (stepUpdate pick now db (fun a => a)).notices = db.notices ∧
    (stepUpdate pick now db (fun a => a)).bids = db.bids := by
  obtain ⟨a, bids, ns, t⟩ := db
  obtain ⟨sp, sT, eT, ti, se, st, wi, wb⟩ := a
  change st = Status.ended at hs
  change eT ≤ now at ht
  subst hs
  simp [stepUpdate, determine_auction_winner, check_auction_status, ht]

/-- C2 (witness): idempotence at the concrete settled database. -/
theorem settlement_idempotent_witness :
    (stepUpdate pickFirstMax 12 dbSettled (fun a => a)).auction = dbSettled.auction ∧
    (stepUpdate pickFirstMax 12 dbSettled (fun a => a)).notices = dbSettled.notices ∧
    (stepUpdate pickFirstMax 12 dbSettled (fun a => a)).bids = dbSettled.bids :=
  settlement_idempotent pickFirstMax 12 dbSettled rfl (by norm_num [dbSettled])

theorem stepUpdate_inv (pick : List Bid → Option Bid) (now : ℚ) (db : DB)
    (f : Auction → Auction) (hv : ValidPick pick)
    (hw : ∀ a, (f a).winnerId = a.winnerId)
    (hwb : ∀ a, (f a).winningBidId = a.winningBidId)
    (het : ∀ a, (f a).endTime = a.endTime)
    (hend : ∀ a, (f a).status = .ended ↔ a.status = .ended)
    (hinv : SettlementInv db) (htime : db.time ≤ now) :
    SettlementInv (stepUpdate pick now db f) := by
  obtain ⟨hiff, hwinner, hended⟩ := hinv
  have hg1 : ¬((f db.auction).status = Status.ended ∧ db.auction.status = Status.active) := by
    rintro ⟨h1, h2⟩
    rw [(hend db.auction).mp h1] at h2
    exact absurd h2 (by decide)
  have hs1 : determine_auction_winner pick db.auction.status (f db.auction) db.bids
      = (f db.auction, []) := by
    simp only [determine_auction_winner, if_neg hg1]
  by_cases hg2 : check_auction_status now (f db.auction) = Status.ended ∧
      (f db.auction).status = Status.active
  · have hEnd : (f db.auction).endTime ≤ now := by
      obtain ⟨hc, ha⟩ := hg2
      by_contra hno
      unfold check_auction_status at hc
      rw [if_neg hno] at hc
      by_cases h2 : (f db.auction).startTime ≤ now
      · rw [if_pos h2] at hc; exact absurd hc (by decide)
      · rw [if_neg h2, ha] at hc; exact absurd hc (by decide)
    cases hpick : pick db.bids with
    | none =>
      have hs2 : determine_auction_winner pick (f db.auction).status
          { f db.auction with status := check_auction_status now (f db.auction) } db.bids
          = ({ f db.auction with status := check_auction_status now (f db.auction) }, []) := by
        simp only [determine_auction_winner, hpick]
        rw [if_pos ⟨hg2.1, hg2.2⟩]
      refine ⟨?_, ?_, ?_⟩
      · simp only [stepUpdate, hs1, hs2]
        simpa only [hw, hwb] using hiff
      · intro w hsome
        simp only [stepUpdate, hs1, hs2] at hsome
        rw [hw] at hsome
        have hst := ((hend db.auction).mpr (hwinner w hsome).1)
        rw [hg2.2] at hst
        exact absurd hst (by decide)
      · intro _
        simp only [stepUpdate, hs1, hs2]
        rw [het]
        exact le_trans (le_of_eq (het db.auction).symm) hEnd
    | some wb =>
      obtain ⟨hmem, hmax⟩ := hv.2 db.bids wb hpick
      have hs2 : determine_auction_winner pick (f db.auction).status
          { f db.auction with status := check_auction_status now (f db.auction) } db.bids
          = ({ { f db.auction with status := check_auction_status now (f db.auction) } with
                winnerId := some wb.bidderId, winningBidId := some wb.id },
             [⟨wb.bidderId, "Auction Won!",
                "Congratulations! You won the auction for item: " ++ (f db.auction).productTitle⟩,
              ⟨(f db.auction).sellerId, "Auction Ended",
                "Your auction has ended with a winning bid of $" ++ toString wb.amount⟩]) := by
        simp only [determine_auction_winner, hpick]
        rw [if_pos ⟨hg2.1, hg2.2⟩]
      refine ⟨?_, ?_, ?_⟩
      · simp only [stepUpdate, hs1, hs2]
        simp
      · intro w hsome
        simp only [stepUpdate, hs1, hs2, Option.some.injEq] at hsome
        subst hsome
        refine ⟨?_, wb, hmem, ?_, rfl⟩
        · simp only [stepUpdate, hs1, hs2]
          exact hg2.1
        · simp only [stepUpdate, hs1, hs2]
      · intro _
        simp only [stepUpdate, hs1, hs2]
        exact hEnd
  · have hs2 : determine_auction_winner pick (f db.auction).status
        { f db.auction with status := check_auction_status now (f db.auction) } db.bids
        = ({ f db.auction with status := check_auction_status now (f db.auction) }, []) := by
      simp only [determine_auction_winner]
      rw [if_neg]
      intro hcon
      exact hg2 ⟨hcon.1, hcon.2⟩
    refine ⟨?_, ?_, ?_⟩
    · simp only [stepUpdate, hs1, hs2]
      simpa only [hw, hwb] using hiff
    · intro w hsome
      simp only [stepUpdate, hs1, hs2] at hsome
      rw [hw] at hsome
      obtain ⟨hst, b, hbmem, hbid, hbdr⟩ := hwinner w hsome
      have ha1 : (f db.auction).status = Status.ended := (hend db.auction).mpr hst
      have hEnd : (f db.auction).endTime ≤ now :=
        le_trans (le_of_eq (het db.auction)) (le_trans (hended hst) htime)
      have hc : check_auction_status now (f db.auction) = Status.ended := by
        unfold check_auction_status
        rw [if_pos hEnd]
      refine ⟨?_, b, hbmem, ?_, hbdr⟩
      · simp only [stepUpdate, hs1, hs2]
        exact hc
      · simp only [stepUpdate, hs1, hs2]
        rw [hwb]
        exact hbid
    · intro hst
      simp only [stepUpdate, hs1, hs2] at hst ⊢
      by_cases h1 : (f db.auction).endTime ≤ now
      · exact h1
      · unfold check_auction_status at hst
        rw [if_neg h1] at hst
        by_cases h2 : (f db.auction).startTime ≤ now
        · rw [if_pos h2] at hst; exact absurd hst (by decide)
        · rw [if_neg h2] at hst
          rw [het]
          exact le_trans (hended ((hend db.auction).mp hst)) htime

theorem insertAuction_inv (pick : List Bid → Option Bid) (hv : ValidPick pick)
    (now sp sT eT : ℚ) (ti : String) (se : Nat) :
    SettlementInv (insertAuction pick now (mkAuction sp sT eT ti se)) := by
  have hnone : pick [] = none := (hv.1 []).mpr rfl
  unfold SettlementInv insertAuction mkAuction determine_auction_winner check_auction_status
  simp only [hnone]
  split_ifs <;> simp_all

theorem cancelOp_winnerId (a : Auction) : (cancelOp a).winnerId = a.winnerId := by
  unfold cancelOp; split_ifs <;> rfl

theorem cancelOp_winningBidId (a : Auction) : (cancelOp a).winningBidId = a.winningBidId := by
  unfold cancelOp; split_ifs <;> rfl

theorem cancelOp_endTime (a : Auction) : (cancelOp a).endTime = a.endTime := by
  unfold cancelOp; split_ifs <;> rfl

theorem cancelOp_ended (a : Auction) : (cancelOp a).status = .ended ↔ a.status = .ended := by
  unfold cancelOp
  split_ifs with h
  · constructor
    · intro hc; simp at hc
    · intro he
      rcases h with h | h <;> rw [he] at h <;> exact absurd h (by decide)
  · exact Iff.rfl

theorem reachable_bid_trace :
    Reachable pickFirstMax
      (stepBid 1 (insertAuction pickFirstMax 0 (mkAuction 100 0 10 "item" 7)) 1 3 150) :=
  Reachable.step _ 1 _ (Reachable.init 0 100 0 10 "item" 7) (by decide)
    (Step.bid 1 _ 1 3 150)

theorem reachable_cancel_trace :
    Reachable pickFirstMax
      (stepUpdate pickFirstMax 11
        (stepBid 1 (insertAuction pickFirstMax 0 (mkAuction 100 0 10 "item" 7)) 1 3 150)
        cancelOp) :=
  Reachable.step _ 11 _ reachable_bid_trace (by decide) (Step.cancel 11 _)

/-- C3 (counterexample): an auction cancelled after its deadline has passed
is flipped straight to `ended` by the status trigger, but the settlement
trigger's `OLD.status = 'active'` guard fails, so the state is `ended` with
one bid and null winner fields — refuting the stated iff. -/
theorem settlement_fields_iff_counterexample : ¬ claimC3 := by
  intro h
  have hiff := h pickFirstMax _ validPick_pickFirstMax reachable_cancel_trace
  have hlhs := hiff.mpr (by decide)
  exact absurd hlhs (by decide)

/-- C3 (amended): what does hold of every reachable state: the two winner
fields are set together; a set winner always points to an admitted bid of an
`ended` auction past its deadline (so an auction with zero bids keeps both
fields null); but `ended` with bids does not force the fields to be set,
because a cancellation racing the close reaches `ended` without settlement
(see the counterexample). -/
theorem settlement_fields_invariant :
    ∀ (pick : List Bid → Option Bid) (db : DB),
      ValidPick pick → Reachable pick db → SettlementInv db := by
  intro pick db hv hr
  induction hr with
  | init now sp sT eT ti se => exact insertAuction_inv pick hv now sp sT eT ti se
  | step db1 now1 db1' h1 ht1 hs1 ih =>
    cases hs1 with
    | touch =>
      exact stepUpdate_inv pick now1 db1 (fun a => a) hv (fun a => rfl) (fun a => rfl)
        (fun a => rfl) (fun a => Iff.rfl) ih ht1
    | cancel =>
      exact stepUpdate_inv pick now1 db1 cancelOp hv cancelOp_winnerId cancelOp_winningBidId
        cancelOp_endTime cancelOp_ended ih ht1
    | bid i u amt =>
      by_cases hp : bidPolicy now1 db1.auction
      · obtain ⟨hiff, hwinner, hended⟩ := ih
        refine ⟨?_, ?_, ?_⟩
        · simpa [stepBid, hp] using hiff
        · intro w hsome
          simp only [stepBid, if_pos hp] at hsome
          obtain ⟨hst, b, hbmem, hbid, hbdr⟩ := hwinner w hsome
          rw [hp.1] at hst
          exact absurd hst (by decide)
        · intro hst
          simp only [stepBid, if_pos hp] at hst
          rw [hp.1] at hst
          exact absurd hst (by decide)
      · simpa [stepBid, hp] using ih

/-- C3 (witness): the invariant at a concrete freshly created auction. -/
theorem settlement_fields_invariant_witness :
    SettlementInv (insertAuction pickFirstMax 0 (mkAuction 100 0 10 "item" 7)) :=
  settlement_fields_invariant pickFirstMax _ validPick_pickFirstMax
    (Reachable.init 0 100 0 10 "item" 7)

/-- C4 (counterexample): cancelling a reachable active auction with one bid
while the bidding window is still open does not leave it `cancelled` — the
status trigger immediately recomputes `active` from the clock, refuting the
claim. -/
theorem terminal_states_counterexample : ¬ claimC4 := by
  intro h
  have := h.2 pickFirstMax 2 _ reachable_bid_trace rfl (by decide) (by decide)
  exact absurd this (by decide)

/-- C4 (amended): `ended` is absorbing once the deadline has passed (touch,
cancel and bid attempts all leave it `ended`), but `cancelled` is not a
fixed point of the code: a cancel inside the bidding window is immediately
reverted to `active` by the status trigger, and a cancel at or after the
deadline lands directly in `ended` — without running settlement (winner
fields and notifications untouched). -/
theorem terminal_states_amended :
    ∀ (pick : List Bid → Option Bid) (now : ℚ) (db : DB),
      (db.auction.status = .ended → db.auction.endTime ≤ now →
        (stepUpdate pick now db (fun a => a)).auction.status = .ended ∧
        (stepUpdate pick now db cancelOp).auction.status = .ended ∧
        ∀ (i u : Nat) (amt : ℚ), (stepBid now db i u amt).auction.status = .ended) ∧
      (db.auction.status = .active →
        (db.auction.startTime ≤ now → now < db.auction.endTime →
          (stepUpdate pick now db cancelOp).auction.status = .active) ∧
        (db.auction.endTime ≤ now →
          (stepUpdate pick now db cancelOp).auction.status = .ended ∧
          (stepUpdate pick now db cancelOp).auction.winnerId = db.auction.winnerId ∧
          (stepUpdate pick now db cancelOp).notices = db.notices)) := by
  intro pick now db
  obtain ⟨⟨sp, sT, eT, ti, se, st, wi, wbid⟩, bids, ns, t⟩ := db
  constructor
  · intro hst hET
    change st = Status.ended at hst
    change eT ≤ now at hET
    subst hst
    refine ⟨?_, ?_, ?_⟩
    · simp [stepUpdate, determine_auction_winner, check_auction_status, hET]
    · simp [stepUpdate, cancelOp, determine_auction_winner, check_auction_status, hET]
    · intro i u amt
      simp [stepBid, bidPolicy]
  · intro hact
    change st = Status.active at hact
    subst hact
    constructor
    · intro hsT hlt
      have hnE : ¬ eT ≤ now := not_le.mpr hlt
      change sT ≤ now at hsT
      simp [stepUpdate, cancelOp, determine_auction_winner, check_auction_status, hsT, hnE]
    · intro hET
      change eT ≤ now at hET
      refine ⟨?_, ?_, ?_⟩ <;>
        simp [stepUpdate, cancelOp, determine_auction_winner, check_auction_status, hET]

/-- C4 (witness): the amended theorem's `ended`-absorbing part at the
concrete settled database. -/
theorem terminal_states_amended_witness :
    (stepUpdate pickFirstMax 12 dbSettled (fun a => a)).auction.status = .ended ∧
    (stepUpdate pickFirstMax 12 dbSettled cancelOp).auction.status = .ended ∧
    ∀ (i u : Nat) (amt : ℚ), (stepBid 12 dbSettled i u amt).auction.status = .ended :=
  (terminal_states_amended pickFirstMax 12 dbSettled).1 rfl (by decide)

theorem determine_auction_winner_endTime (pick : List Bid → Option Bid)
    (o : Status) (a : Auction) (bids : List Bid) :
    (determine_auction_winner pick o a bids).1.endTime = a.endTime := by
  unfold determine_auction_winner
  split_ifs
  · cases hpk : pick bids <;> simp [hpk]
  · rfl

theorem stepUpdate_endTime (pick : List Bid → Option Bid) (now : ℚ) (db : DB)
    (f : Auction → Auction) (het : ∀ a, (f a).endTime = a.endTime) :
    (stepUpdate pick now db f).auction.endTime = db.auction.endTime := by
  simp only [stepUpdate, determine_auction_winner_endTime]
  exact het db.auction

/-- C5: the bid admission gate is the row-level-security policy: an insert
changes the database only if the auction is `active` and the current time is
strictly before `end_time`; consequently every bid in every reachable state
was created strictly before the auction's deadline. -/
theorem bid_deadline_invariant :
    (∀ (pick : List Bid → Option Bid) (db : DB), Reachable pick db →
       ∀ b ∈ db.bids, b.createdAt < db.auction.endTime) ∧
    (∀ (now : ℚ) (db : DB) (i u : Nat) (amt : ℚ),
       stepBid now db i u amt ≠ db →
       db.auction.status = .active ∧ now < db.auction.endTime) := by
  constructor
  · intro pick db hr
    induction hr with
    | init now sp sT eT ti se =>
      intro b hb
      simp [insertAuction] at hb
    | step db1 now1 db1' h1 ht1 hs1 ih =>
      cases hs1 with
      | touch =>
        intro b hb
        rw [stepUpdate_endTime pick now1 db1 _ (fun a => rfl)]
        exact ih b hb
      | cancel =>
        intro b hb
        rw [stepUpdate_endTime pick now1 db1 _ cancelOp_endTime]
        exact ih b hb
      | bid i u amt =>
        intro b hb
        by_cases hp : bidPolicy now1 db1.auction
        · simp only [stepBid, if_pos hp] at hb ⊢
          rcases List.mem_append.mp hb with h | h
          · exact ih b h
          · simp only [List.mem_singleton] at h
            subst h
            exact hp.2
        · simp only [stepBid, if_neg hp] at hb ⊢
          exact ih b hb
  · intro now db i u amt hne
    by_cases hp : bidPolicy now db.auction
    · exact ⟨hp.1, hp.2⟩
    · exact absurd (by simp [stepBid, if_neg hp]) hne

/-- C5 (witness): the deadline bound at the single admitted bid of the
concrete trace. -/
theorem bid_deadline_invariant_witness :
    (⟨1, 3, 150, 1⟩ : Bid).createdAt <
      (stepBid 1 (insertAuction pickFirstMax 0 (mkAuction 100 0 10 "item" 7))
        1 3 150).auction.endTime :=
  bid_deadline_invariant.1 pickFirstMax _ reachable_bid_trace ⟨1, 3, 150, 1⟩ (by decide)

theorem fetchHighestBid_pos (startPrice : ℚ) (bids : List Bid)
    (hsp : 0 < startPrice) (hpos : ∀ b ∈ bids, 0 < b.amount) :
    0 < fetchHighestBid startPrice bids := by
  cases bids with
  | nil => exact hsp
  | cons b bs =>
    exact lt_of_lt_of_le (hpos b (List.mem_cons_self _ _)) (amountMax_head_le b bs)

theorem handleBidSubmitCheck_iff (startPrice amt : ℚ) (bids : List Bid)
    (hsp : 0 < startPrice) (hpos : ∀ b ∈ bids, 0 < b.amount) :
    (handleBidSubmitCheck (fetchHighestBid startPrice bids) startPrice amt = true ↔
      fetchHighestBid startPrice bids < amt) := by
  unfold handleBidSubmitCheck jsOr
  rw [if_neg (ne_of_gt (fetchHighestBid_pos startPrice bids hsp hpos))]
  exact decide_eq_true_iff

/-- C6 (counterexample): a first bid exactly equal to the starting price is
rejected by the gate (`bidAmount <= highest` with `highest` falling back to
the start price), refuting the claim's "exceed or equal" clause. -/
theorem first_bid_equal_start_counterexample : ¬ claimC6 := by
  intro h
  have := (h 100 100 [] (by norm_num)
    (fun b hb => absurd hb (List.not_mem_nil b))).mpr (by norm_num)
  exact absurd this (by decide)

/-- C6 (amended): the gate is strict everywhere: with prior bids the amount
must strictly exceed the current maximum, and the first bid must strictly
exceed the starting price (equality is rejected). -/
theorem bid_admission_strict_amended :
    ∀ (startPrice amt : ℚ) (bids : List Bid),
      0 < startPrice → (∀ b ∈ bids, 0 < b.amount) →
      (handleBidSubmitCheck (fetchHighestBid startPrice bids) startPrice amt = true ↔
        match bids with
        | [] => startPrice < amt
        | b :: bs => amountMax b bs < amt) := by
  intro startPrice amt bids hsp hpos
  rw [handleBidSubmitCheck_iff startPrice amt bids hsp hpos]
  cases bids with
  | nil => exact Iff.rfl
  | cons b bs => exact Iff.rfl

/-- C6 (witness): the amended characterization at a concrete fresh auction. -/
theorem bid_admission_strict_amended_witness :
    handleBidSubmitCheck (fetchHighestBid 100 []) 100 150 = true ↔
      match ([] : List Bid) with
      | [] => (100 : ℚ) < 150
      | b :: bs => amountMax b bs < 150 :=
  bid_admission_strict_amended 100 150 [] (by norm_num)
    (fun b hb => absurd hb (List.not_mem_nil b))

/-- C7 (counterexample): the seller's own bid on their active auction passes
every check in the submission path and is persisted — no self-bid
prohibition exists anywhere in the code. -/
theorem selfbid_admitted_counterexample : ¬ claimC7 := by
  intro h
  have := h 2 dbActive 1 150
  exact absurd this (by decide)

/-- C7 (amended): the submission path never inspects the bidder's identity:
the admission outcome (length) and the recorded amounts are the same
whoever submits, so the seller is gated exactly like any other bidder. -/
theorem selfbid_not_checked_amended :
    ∀ (now : ℚ) (db : DB) (u v i : Nat) (amt : ℚ),
      ((handleBidSubmit now db u i amt).bids.map (fun b => b.amount)) =
        ((handleBidSubmit now db v i amt).bids.map (fun b => b.amount)) ∧
      (handleBidSubmit now db u i amt).bids.length =
        (handleBidSubmit now db v i amt).bids.length := by
  intro now db u v i amt
  unfold handleBidSubmit stepBid
  split_ifs <;> simp

/-- C8 (counterexample): the `postgres_changes` payload carries the whole
bid row, `bidder_id` included, so two bids differing only in bidder yield
different events. -/
theorem sealed_event_counterexample : ¬ claimC8 := by
  intro h
  have := h ⟨1, 3, 150, 1⟩ ⟨1, 4, 150, 1⟩ rfl rfl rfl
  exact absurd this (by decide)

/-- C8 (amended): the delivered event determines the bidder identity
(payloads of bids differing in bidder differ), while the auction-detail page
state derived from the event depends only on the amount. -/
theorem sealed_event_amended :
    ∀ (b1 b2 : Bid) (prev : Option ℚ),
      (b1.bidderId ≠ b2.bidderId → bidInsertPayload b1 ≠ bidInsertPayload b2) ∧
      (b1.amount = b2.amount →
        onBidEvent prev (bidInsertPayload b1) = onBidEvent prev (bidInsertPayload b2)) := by
  intro b1 b2 prev
  constructor
  · intro hne heq
    exact hne (congrArg (fun p => p.newRow.bidderId) heq)
  · intro heq
    unfold onBidEvent bidInsertPayload
    simp [heq]

/-- C8 (witness): both parts of the amended theorem at two concrete bids
differing only in bidder. -/
theorem sealed_event_amended_witness :
    bidInsertPayload ⟨1, 3, 150, 1⟩ ≠ bidInsertPayload ⟨1, 4, 150, 1⟩ ∧
    onBidEvent (some 100) (bidInsertPayload ⟨1, 3, 150, 1⟩) =
      onBidEvent (some 100) (bidInsertPayload ⟨1, 4, 150, 1⟩) :=
  ⟨(sealed_event_amended ⟨1, 3, 150, 1⟩ ⟨1, 4, 150, 1⟩ (some 100)).1 (by decide),
   (sealed_event_amended ⟨1, 3, 150, 1⟩ ⟨1, 4, 150, 1⟩ (some 100)).2 rfl⟩

/-- C9 (counterexample): two clients both fetch the empty high-bid snapshot
and both submit 150; each passes the stale client-side check and each insert
is unconditional, so both tie bids are persisted — the accepted sequence
[150, 150] is not strictly increasing. -/
theorem concurrent_tie_counterexample : ¬ claimC9 := by
  intro h
  have := h 2 dbActive 3 1 150 4 2 150 (by decide)
  exact absurd this (by decide)

/-- C9 (amended): strict increase holds only when submissions are
serialized: a single submission checked against the current state preserves
positivity and strict monotonicity of the accepted amounts; the concurrent
stale-read schedule violates it (see the counterexample). -/
theorem serialized_admission_amended :
    ∀ (now : ℚ) (db : DB) (u i : Nat) (amt : ℚ),
      0 < db.auction.startPrice →
      (∀ b ∈ db.bids, 0 < b.amount) →
      List.Pairwise (· < ·) (db.bids.map (fun b => b.amount)) →
      (∀ b ∈ (handleBidSubmit now db u i amt).bids, 0 < b.amount) ∧
      List.Pairwise (· < ·) ((handleBidSubmit now db u i amt).bids.map (fun b => b.amount)) := by
  intro now db u i amt hsp hpos hpw
  unfold handleBidSubmit
  by_cases hg : handleBidSubmitCheck (fetchHighestBid db.auction.startPrice db.bids)
      db.auction.startPrice amt = true
  · rw [if_pos hg]
    have hgt : fetchHighestBid db.auction.startPrice db.bids < amt :=
      (handleBidSubmitCheck_iff _ _ _ hsp hpos).mp hg
    have hamt : 0 < amt := lt_trans (fetchHighestBid_pos _ _ hsp hpos) hgt
    have hall : ∀ b ∈ db.bids, b.amount < amt := by
      intro b hb
      cases hbids : db.bids with
      | nil => rw [hbids] at hb; cases hb
      | cons c cs =>
        rw [hbids] at hb
        have hle : b.amount ≤ amountMax c cs := amountMax_mem_le c cs b hb
        have hF : fetchHighestBid db.auction.startPrice db.bids = amountMax c cs := by
          rw [hbids]; rfl
        exact lt_of_le_of_lt hle (hF ▸ hgt)
    unfold stepBid
    by_cases hp : bidPolicy now db.auction
    · rw [if_pos hp]
      constructor
      · intro b hb
        simp only [List.mem_append, List.mem_singleton] at hb
        rcases hb with h | h
        · exact hpos b h
        · subst h; exact hamt
      · simp only [List.map_append, List.map_cons, List.map_nil]
        rw [List.pairwise_append]
        refine ⟨hpw, by simp, ?_⟩
        intro x hx y hy
        simp only [List.mem_singleton] at hy
        subst hy
        obtain ⟨b, hb, hxb⟩ := List.mem_map.mp hx
        rw [← hxb]
        exact hall b hb
    · rw [if_neg hp]
      exact ⟨hpos, hpw⟩
  · rw [if_neg hg]
    exact ⟨hpos, hpw⟩

/-- C9 (witness): one serialized submission on the concrete fresh auction. -/
theorem serialized_admission_amended_witness :
    (∀ b ∈ (handleBidSubmit 2 dbActive 3 1 150).bids, 0 < b.amount) ∧
    List.Pairwise (· < ·) ((handleBidSubmit 2 dbActive 3 1 150).bids.map (fun b => b.amount)) :=
  serialized_admission_amended 2 dbActive 3 1 150 (by decide)
    (fun b hb => absurd hb (List.not_mem_nil b)) (by decide)

/-- C10: resubscribing to the same auction id overwrites the single
`channels` map entry with the new channel; the unsubscribe closure returned
by the first call looks the channel up under `"auction:" ++ auctionId` — a
key never used by `subscribeToAuction` — so it removes and closes nothing:
the earlier channel is never unsubscribed, and at most the most recent entry
could ever be touched. -/
theorem resubscribe_overwrites (auctionId : String) :
    (subscribeToAuction (subscribeToAuction ⟨[], 0, []⟩ auctionId).1 auctionId).1.channels
        = [(auctionId, 1)] ∧
    unsubscribeFromAuction
        (subscribeToAuction (subscribeToAuction ⟨[], 0, []⟩ auctionId).1 auctionId).1
        (subscribeToAuction ⟨[], 0, []⟩ auctionId).2
      = (subscribeToAuction (subscribeToAuction ⟨[], 0, []⟩ auctionId).1 auctionId).1 ∧
    (unsubscribeFromAuction
        (subscribeToAuction (subscribeToAuction ⟨[], 0, []⟩ auctionId).1 auctionId).1
        (subscribeToAuction ⟨[], 0, []⟩ auctionId).2).closed = [] := by
  have hne : ¬ (auctionId = "auction:" ++ auctionId) := by
    intro h
    have hlen := congrArg String.length h
    rw [String.length_append] at hlen
    have h8 : ("auction:" : String).length = 8 := rfl
    omega
  have hs2 : (subscribeToAuction (subscribeToAuction ⟨[], 0, []⟩ auctionId).1 auctionId).1
      = ⟨[(auctionId, 1)], 2, []⟩ := by
    simp [subscribeToAuction, mapSet]
  have hget : mapGet [(auctionId, 1)] ("auction:" ++ auctionId) = none := by
    simp [mapGet, hne]
  have hsnd : (subscribeToAuction ⟨[], 0, []⟩ auctionId).2 = auctionId := rfl
  refine ⟨by rw [hs2], ?_, ?_⟩
  · rw [hs2]
    unfold unsubscribeFromAuction unsubscribeFromChannel
    simp [hsnd, hget]
  · rw [hs2]
    unfold unsubscribeFromAuction unsubscribeFromChannel
    simp [hsnd, hget]
